import Mathlib

/-!
Verification development for the `rust-phf` repository: a shallow embedding of
the perfect-hash construction pipeline (bucket partitioning, displacement
search, retry driver) and of the `phf_codegen` static serializer, together
with theorems settling the specification claims.

The construction algorithm itself (`phf_generator`) is not part of the source
tree under verification; where it is needed it is modelled from the spec, as
marked on each such definition.  The `phf_codegen` serializer definitions are
translated directly from `src/phf_codegen/src/lib.rs`.
-/

namespace Phf

/-- Modelled from the spec: the target average bucket size λ used by the
Bucket Partitioner ("`bucket_count = ceil(key_count / λ)`", λ typically 5);
`phf_generator` is not under `src/`. -/
def lambdaVal : Nat := 5

/-- Modelled from the spec: number of buckets, `ceil(key_count / λ)`. -/
def bucketCount (n : Nat) : Nat := (n + lambdaVal - 1) / lambdaVal

/-- Modelled from the spec: a bucket is a set of key indices sharing a
primary-hash residue, tagged with its bucket index. -/
structure Bucket where
  idx : Nat
  keys : List Nat
deriving DecidableEq

/-- The successful result of one construction attempt: the seed used, the
displacement pairs (bucket-index-addressed) and the slot table, as in the
spec's HashState / `phf_generator::HashState`. -/
structure HashState where
  key : Nat
  disps : List (Nat × Nat)
  map : List Nat
deriving DecidableEq

/-- Modelled from the spec: bucket residue of a key,
`primary_hash(seed, key) mod bucket_count`. -/
def keyBucket (ph : Nat → List Nat → Nat) (seed bc : Nat) (k : List Nat) : Nat :=
  ph seed k % bc

/-- Modelled from the spec: the Bucket Partitioner groups key indices by
primary-hash residue into `bucketCount` buckets. -/
def bucketsFor (ph : Nat → List Nat → Nat) (seed : Nat) (keys : List (List Nat)) :
    List Bucket :=
  let n := keys.length
  let bc := bucketCount n
  (List.range bc).map fun b =>
    ⟨b, (List.range n).filter fun j => keyBucket ph seed bc (keys.getD j []) = b⟩

/-- Modelled from the spec: bucket processing order — descending size, ties
broken by ascending bucket index. -/
def bucketLE (a b : Bucket) : Prop :=
  b.keys.length < a.keys.length ∨
    (b.keys.length = a.keys.length ∧ a.idx ≤ b.idx)

instance : DecidableRel bucketLE := fun a b =>
  inferInstanceAs (Decidable (b.keys.length < a.keys.length ∨
    (b.keys.length = a.keys.length ∧ a.idx ≤ b.idx)))

/-- Modelled from the spec: candidate slot of a key under a displacement pair,
`secondary_hash(d1, d2, key) mod capacity`. -/
def slotFor (sh : Nat → Nat → List Nat → Nat) (cap d1 d2 : Nat) (k : List Nat) : Nat :=
  sh d1 d2 k % cap

/-- Slots of all keys of one bucket under a candidate displacement pair. -/
def bucketSlots (sh : Nat → Nat → List Nat → Nat) (cap d1 d2 : Nat)
    (keys : List (List Nat)) (bkeys : List Nat) : List Nat :=
  bkeys.map fun j => slotFor sh cap d1 d2 (keys.getD j [])

/-- Modelled from the spec: a candidate displacement pair is valid when the
bucket's slots are pairwise distinct and none is already occupied. -/
def pairOK (tbl : List (Option Nat)) (slots : List Nat) : Prop :=
  slots.Nodup ∧ ∀ s ∈ slots, tbl.getD s none = none

instance (tbl : List (Option Nat)) (slots : List Nat) : Decidable (pairOK tbl slots) :=
  inferInstanceAs (Decidable (_ ∧ _))

/-- Modelled from the spec: deterministic sequential scan of the displacement
pair space `[0, capacity) × [0, capacity)` for the first valid pair. -/
def findPair (sh : Nat → Nat → List Nat → Nat) (cap : Nat) (keys : List (List Nat))
    (tbl : List (Option Nat)) (bkeys : List Nat) : Option (Nat × Nat) :=
  (List.range cap).findSome? fun d1 =>
    (List.range cap).findSome? fun d2 =>
      if pairOK tbl (bucketSlots sh cap d1 d2 keys bkeys) then some (d1, d2) else none

/-- Store key indices into the slot table at the given positions. -/
def setMany (tbl : List (Option Nat)) (ps : List (Nat × Nat)) : List (Option Nat) :=
  ps.foldl (fun t p => t.set p.1 (some p.2)) tbl

/-- Mark the chosen slots of a bucket as occupied by its key indices. -/
def placeBucket (tbl : List (Option Nat)) (bkeys slots : List Nat) : List (Option Nat) :=
  setMany tbl (slots.zip bkeys)

/-- Modelled from the spec: the Displacement Resolver places each bucket in
order; if some bucket admits no valid pair the whole attempt fails. -/
def resolveBuckets (sh : Nat → Nat → List Nat → Nat) (cap : Nat)
    (keys : List (List Nat)) :
    List Bucket → List (Option Nat) → List (Nat × Nat) →
      Option (List (Nat × Nat) × List (Option Nat))
  | [], tbl, disps => some (disps, tbl)
  | b :: bs, tbl, disps =>
    match findPair sh cap keys tbl b.keys with
    | none => none
    | some (d1, d2) =>
      resolveBuckets sh cap keys bs
        (placeBucket tbl b.keys (bucketSlots sh cap d1 d2 keys b.keys))
        (disps.set b.idx (d1, d2))

/-- Modelled from the spec: one construction attempt — partition, sort the
buckets, resolve them against an all-empty slot table of capacity equal to
the key count. Returns the displacement table and the slot table. -/
def tryConstructAux (ph : Nat → List Nat → Nat) (sh : Nat → Nat → List Nat → Nat)
    (seed : Nat) (keys : List (List Nat)) :
    Option (List (Nat × Nat) × List (Option Nat)) :=
  let n := keys.length
  resolveBuckets sh n keys
    (List.insertionSort bucketLE (bucketsFor ph seed keys))
    (List.replicate n none)
    (List.replicate (bucketCount n) (0, 0))

/-- Modelled from the spec:
`try_construct(keys, seed) -> Optional[HashState]`. -/
def tryConstruct (ph : Nat → List Nat → Nat) (sh : Nat → Nat → List Nat → Nat)
    (seed : Nat) (keys : List (List Nat)) : Option HashState :=
  (tryConstructAux ph sh seed keys).map fun r =>
    ⟨seed, r.1, r.2.map fun o => o.getD 0⟩

/-- Modelled from the spec: the Construction Driver's unbounded retry loop
(`construct(keys, rng)`), unfolded against a stream of drawn seeds; the fuel
argument only truncates the unfolding and is not an attempt cap of the loop
itself. -/
def construct (ph : Nat → List Nat → Nat) (sh : Nat → Nat → List Nat → Nat)
    (seeds : Nat → Nat) (keys : List (List Nat)) : Nat → Nat → Option HashState
  | _, 0 => none
  | i, fuel + 1 =>
    match tryConstruct ph sh (seeds i) keys with
    | some st => some st
    | none => construct ph sh seeds keys (i + 1) fuel

/-- Modelled from the spec: the lookup slot of a candidate key — bucket index
via the primary hash, that bucket's displacement pair from `disps`, slot via
the secondary hash mod capacity. -/
def lookupSlot (ph : Nat → List Nat → Nat) (sh : Nat → Nat → List Nat → Nat)
    (seed : Nat) (disps : List (Nat × Nat)) (cap : Nat) (k : List Nat) : Nat :=
  let d := disps.getD (ph seed k % disps.length) (0, 0)
  sh d.1 d.2 k % cap

/-- The entries sequence of a serialized table: slot `s` holds the key/value
pair of key index `map s`. -/
def entriesOf (keys : List (List Nat)) (values : List String) (st : HashState) :
    List (List Nat × String) :=
  st.map.map fun idx => (keys.getD idx [], values.getD idx "")

/-- The occupied cells of a slot table, in slot order. -/
def occ (tbl : List (Option Nat)) : List Nat :=
  tbl.filterMap id

/-! ## The `phf_codegen` serializer, from `src/phf_codegen/src/lib.rs`. -/

/-- The duplicate scan of `Map::build`: keys are inserted one by one into a
set of previously seen keys, failing on the first key equal (by the key
type's equality) to an already seen one. -/
def hasDupAux {K : Type _} [DecidableEq K] (seen : List K) : List K → Bool
  | [] => false
  | k :: rest => seen.contains k || hasDupAux (k :: seen) rest

/-- Whether the key list contains a duplicate under the key type's equality,
as detected by the `HashSet` scan at the start of `Map::build`. -/
def hasDup {K : Type _} [DecidableEq K] (keys : List K) : Bool :=
  hasDupAux [] keys

/-- The builder state of `phf_codegen::Map`: parallel key and value-text
lists plus the path to the `phf` crate. -/
structure Map (K : Type _) where
  keys : List K
  values : List String
  path : String
deriving DecidableEq

/-- `Map::new`. -/
def Map.new {K : Type _} : Map K := ⟨[], [], "::phf"⟩

/-- `Map::phf_path`. -/
def Map.phfPath {K : Type _} (m : Map K) (p : String) : Map K :=
  ⟨m.keys, m.values, p⟩

/-- `Map::entry`: push the key and the value text, the latter kept verbatim. -/
def Map.entry {K : Type _} (m : Map K) (k : K) (v : String) : Map K :=
  ⟨m.keys ++ [k], m.values ++ [v], m.path⟩

/-- Text written for one displacement pair by `Map::build`. -/
def dispText (p : Nat × Nat) : String :=
  "\n        (" ++ toString p.1 ++ ", " ++ toString p.2 ++ "),"

/-- Text written for one entry pair by `Map::build`. -/
def entryText (kv : String × String) : String :=
  "\n        (" ++ kv.1 ++ ", " ++ kv.2 ++ "),"

/-- The (key-literal, value-text) pairs emitted by `Map::build`, one per slot
in slot order: slot `i` shows the key at index `map i` with that index's
value text. -/
def entryPairs {K : Type _} [Inhabited K] (lit : K → String) (ks : List K)
    (vs : List String) (slotMap : List Nat) : List (String × String) :=
  slotMap.map fun idx => (lit (ks.getD idx default), vs.getD idx "")

/-- The structured output grammar of `Map::build`: a `path::Map` literal with
the three fields `key`, `disps`, `entries`, in that order. -/
def mapLiteral (path : String) (seed : Nat) (disps : List (Nat × Nat))
    (pairs : List (String × String)) : String :=
  path ++ "::Map \x7b\n    key: " ++ toString seed ++ ",\n    disps: &[" ++
    String.join (disps.map dispText) ++ "\n    ],\n    entries: &[" ++
    String.join (pairs.map entryText) ++ "\n    ],\n\x7d"

/-- `Map::build`, with the writer made explicit: the result is the text
written to the writer so far paired with whether the call panicked (a panic
aborts before any further writes).  `gen` stands for the collaborator
`phf_generator::generate_hash` (not under `src/`) and `lit` for the key
type's `Source` rendering. -/
def Map.build {K : Type _} [DecidableEq K] [Inhabited K]
    (gen : List K → HashState) (lit : K → String) (m : Map K) : String × Bool :=
  if hasDup m.keys then ("", true)
  else
    let st := gen m.keys
    let s0 := m.path ++ "::Map \x7b\n    key: " ++ toString st.key ++
      ",\n    disps: &["
    let s1 := st.disps.foldl (fun acc p =>
      acc ++ "\n        (" ++ toString p.1 ++ ", " ++ toString p.2 ++ "),") s0
    let s2 := s1 ++ "\n    ],\n    entries: &["
    let s3 := st.map.foldl (fun acc idx =>
      acc ++ "\n        (" ++ lit (m.keys.getD idx default) ++ ", " ++
        m.values.getD idx "" ++ "),") s2
    (s3 ++ "\n    ],\n\x7d", false)

/-- The builder state of `phf_codegen::Set`: a wrapped `Map` builder. -/
structure Set (K : Type _) where
  map : Map K
deriving DecidableEq

/-- `Set::new`. -/
def Set.new {K : Type _} : Set K := ⟨Map.new⟩

/-- `Set::entry`: delegate to `Map::entry` with the sentinel value `"()"`. -/
def Set.entry {K : Type _} (s : Set K) (k : K) : Set K :=
  ⟨s.map.entry k "()"⟩

/-- `Set::build`: write the `path::Set` wrapper prefix, then run
`Map::build`, then close the wrapper; a panic inside `Map::build` leaves the
prefix already written. -/
def Set.build {K : Type _} [DecidableEq K] [Inhabited K]
    (gen : List K → HashState) (lit : K → String) (s : Set K) : String × Bool :=
  let pre := s.map.path ++ "::Set \x7b map: "
  let r := Map.build gen lit s.map
  if r.2 then (pre ++ r.1, true) else (pre ++ r.1 ++ " \x7d", false)

/-! ## Key-literal escaping, from `impl Source for str` / `impl Source for [u8]`.
Characters and bytes are modelled as natural numbers (code points / byte
values); literals are lists of code points. -/

/-- Lowercase hex digit character of a value below 16. -/
def hexDigitChar (d : Nat) : Nat :=
  if d < 10 then 48 + d else 87 + d

/-- Numeric value of a lowercase hex digit character. -/
def hexVal (c : Nat) : Nat :=
  if c < 58 then c - 48 else c - 87

/-- Whether a code point is a lowercase hex digit. -/
def isHexDigit (c : Nat) : Bool :=
  (48 ≤ c && c ≤ 57) || (97 ≤ c && c ≤ 102)

/-- Big-endian lowercase hex digits of a number (empty for zero). -/
def toHexDigits (n : Nat) : List Nat :=
  ((Nat.digits 16 n).reverse).map hexDigitChar

/-- Hex representation as printed by `char::escape_unicode`: at least one
digit, no leading zeros. -/
def hexRepr (n : Nat) : List Nat :=
  if n = 0 then [48] else toHexDigits n

/-- `char::escape_default`, as iterated by `impl Source for str`: tab,
carriage return, newline, backslash and both quotes get two-character
escapes; other printable ASCII is kept; everything else becomes
`\u\x7b…\x7d`. -/
def escapeChar (c : Nat) : List Nat :=
  if c = 9 then [92, 116]
  else if c = 13 then [92, 114]
  else if c = 10 then [92, 110]
  else if c = 92 then [92, 92]
  else if c = 39 then [92, 39]
  else if c = 34 then [92, 34]
  else if 32 ≤ c ∧ c ≤ 126 then [c]
  else [92, 117, 123] ++ hexRepr c ++ [125]

/-- The key literal emitted by `impl Source for str`: a double-quoted,
per-character escaped form. -/
def strLit (s : List Nat) : List Nat :=
  34 :: s.flatMap escapeChar ++ [34]

/-- `ascii::escape_default`, as iterated by `impl Source for [u8]`: the same
two-character escapes, printable ASCII kept, and other bytes become
`\xNN`. -/
def escapeByte (c : Nat) : List Nat :=
  if c = 9 then [92, 116]
  else if c = 13 then [92, 114]
  else if c = 10 then [92, 110]
  else if c = 92 then [92, 92]
  else if c = 39 then [92, 39]
  else if c = 34 then [92, 34]
  else if 32 ≤ c ∧ c ≤ 126 then [c]
  else [92, 120, hexDigitChar (c / 16), hexDigitChar (c % 16)]

/-- The trailing cast text `" as &[u8]"` written by `impl Source for [u8]`
after the closing quote. -/
def castSuffix : List Nat := [32, 97, 115, 32, 38, 91, 117, 56, 93]

/-- The key literal emitted by `impl Source for [u8]`:
`b"…" as &[u8]` with per-byte escaping. -/
def byteLit (bs : List Nat) : List Nat :=
  98 :: 34 :: bs.flatMap escapeByte ++ 34 :: castSuffix

/-- Prepend a decoded code point to the result of a body parse. -/
def consCP (v : Nat) (o : Option (List Nat × List Nat)) :
    Option (List Nat × List Nat) :=
  o.map fun p => (v :: p.1, p.2)

mutual

/-- Unescaping per the target grammar's string-literal rules: parse the body
of a double-quoted literal up to (and consuming) the closing quote,
returning the decoded code points and the remaining input.  Raw printable
characters stand for themselves; a backslash starts one of the escape
sequences `escape_default` emits. -/
def parseBody : List Nat → Option (List Nat × List Nat)
  | [] => none
  | c :: r =>
    if c = 34 then some ([], r)
    else if c = 92 then
      match r with
      | [] => none
      | e :: r2 =>
        if e = 116 then consCP 9 (parseBody r2)
        else if e = 114 then consCP 13 (parseBody r2)
        else if e = 110 then consCP 10 (parseBody r2)
        else if e = 92 then consCP 92 (parseBody r2)
        else if e = 39 then consCP 39 (parseBody r2)
        else if e = 34 then consCP 34 (parseBody r2)
        else if e = 117 then
          match r2 with
          | f :: r3 => if f = 123 then parseUni 0 false r3 else none
          | [] => none
        else none
    else if 32 ≤ c ∧ c ≤ 126 then consCP c (parseBody r)
    else none

/-- Unescaping: inside `\u\x7b…\x7d`, accumulate hex digits until the
closing brace (at least one digit required), then continue with the body. -/
def parseUni (acc : Nat) (seen : Bool) : List Nat → Option (List Nat × List Nat)
  | [] => none
  | c :: r =>
    if c = 125 then
      if seen then consCP acc (parseBody r) else none
    else if isHexDigit c then parseUni (16 * acc + hexVal c) true r
    else none

end

/-- Unescape a text-key literal: opening quote, body, closing quote, nothing
after. -/
def unescapeStrLit : List Nat → Option (List Nat)
  | 34 :: r =>
    match parseBody r with
    | some (s, []) => some s
    | _ => none
  | _ => none

/-- Unescaping for byte-string literals: parse the body of a `b"…"` literal
up to the closing quote; escapes are the two-character ones plus `\xNN`. -/
def parseByteBody : List Nat → Option (List Nat × List Nat)
  | [] => none
  | c :: r =>
    if c = 34 then some ([], r)
    else if c = 92 then
      match r with
      | [] => none
      | e :: r2 =>
        if e = 116 then consCP 9 (parseByteBody r2)
        else if e = 114 then consCP 13 (parseByteBody r2)
        else if e = 110 then consCP 10 (parseByteBody r2)
        else if e = 92 then consCP 92 (parseByteBody r2)
        else if e = 39 then consCP 39 (parseByteBody r2)
        else if e = 34 then consCP 34 (parseByteBody r2)
        else if e = 120 then
          match r2 with
          | h1 :: h2 :: r3 =>
            if isHexDigit h1 ∧ isHexDigit h2 then
              consCP (16 * hexVal h1 + hexVal h2) (parseByteBody r3)
            else none
          | _ => none
        else none
    else if 32 ≤ c ∧ c ≤ 126 then consCP c (parseByteBody r)
    else none

/-- Unescape a binary-key literal: `b`, opening quote, body, closing quote,
then exactly the cast text ` as &[u8]`. -/
def unescapeByteLit : List Nat → Option (List Nat)
  | 98 :: 34 :: r =>
    match parseByteBody r with
    | some (bs, rest) => if rest = castSuffix then some bs else none
    | none => none
  | _ => none

/-! ## Concrete instances used by the witnesses. -/

/-- A concrete primary hash for witnesses: the first byte of the key. -/
def phA : Nat → List Nat → Nat := fun _ k => k.headD 0

/-- A concrete secondary hash for witnesses. -/
def shA : Nat → Nat → List Nat → Nat := fun _ d2 k => d2 + k.headD 0

/-- A concrete stand-in for the generator collaborator, for witnesses about
the serializer only. -/
def genA : List String → HashState := fun _ => ⟨0, [(0, 0)], [1, 0]⟩

/-- A concrete one-slot stand-in generator. -/
def genB : List String → HashState := fun _ => ⟨0, [(0, 0)], [0]⟩

/-- A concrete key rendering for witnesses. -/
def litA : String → String := fun s => "\"" ++ s ++ "\""

/-- A concrete two-entry map builder with distinct keys. -/
def mbA : Map String := (Map.new.entry "a" "VA").entry "b" "VB"

/-- A concrete map builder with a duplicate key. -/
def mbDup : Map String := ((Map.new.entry "a" "VA").entry "b" "VB").entry "a" "VC"

/-- A concrete one-element set builder. -/
def sbA : Phf.Set String := Set.new.entry "a"

/-- A concrete set builder with a duplicate key. -/
def sbDup : Phf.Set String := (Set.new.entry "a").entry "a"

/-! # Theorems -/

theorem hasDupAux_eq_false {K : Type _} [DecidableEq K] (seen l : List K) :
    hasDupAux seen l = false ↔ l.Nodup ∧ ∀ k ∈ l, k ∉ seen := by
  induction l generalizing seen with
  | nil => simp [hasDupAux]
  | cons k rest ih =>
    simp only [hasDupAux, Bool.or_eq_false_iff, ih, List.nodup_cons,
      List.mem_cons, List.contains_eq_any_beq, List.any_eq_false, beq_iff_eq]
    constructor
    · rintro ⟨hk, hnd, hmem⟩
      refine ⟨⟨fun hkr => (hmem k hkr) (Or.inl rfl), hnd⟩, ?_⟩
      rintro x (rfl | hx)
      · exact fun hxs => hk x hxs rfl
      · exact fun hxs => (hmem x hx) (Or.inr hxs)
    · rintro ⟨⟨hkr, hnd⟩, hmem⟩
      refine ⟨fun x hxs hxk => hmem k (Or.inl rfl) (hxk ▸ hxs), hnd,
        fun x hx hxs => ?_⟩
      rcases hxs with rfl | hxs2
      · exact hkr hx
      · exact hmem x (Or.inr hx) hxs2

theorem hasDup_eq_false_iff {K : Type _} [DecidableEq K] (l : List K) :
    hasDup l = false ↔ l.Nodup := by
  simp [hasDup, hasDupAux_eq_false]

/-- C3: for every key sequence with a duplicate, `Map::build` (and
`Set::build`, which delegates to it) panics before invoking the construction
driver — the result does not depend on the generator collaborator and no
output is produced by the map build — while for duplicate-free key sequences
the duplicate check does not panic. -/
theorem duplicate_keys_panic_before_hashing {K : Type _} [DecidableEq K]
    [Inhabited K] (m : Map K) :
    (¬m.keys.Nodup →
      ∀ (gen gen2 : List K → HashState) (lit lit2 : K → String),
        Map.build gen lit m = ("", true) ∧
        Map.build gen lit m = Map.build gen2 lit2 m ∧
        (Set.build gen lit ⟨m⟩).2 = true) ∧
    (m.keys.Nodup →
      ∀ (gen : List K → HashState) (lit : K → String),
        (Map.build gen lit m).2 = false ∧ (Set.build gen lit ⟨m⟩).2 = false) := by
  constructor
  · intro hdup gen gen2 lit lit2
    have hd : hasDup m.keys = true := by
      cases h2 : hasDup m.keys with
      | false => exact absurd ((hasDup_eq_false_iff m.keys).mp h2) hdup
      | true => rfl
    refine ⟨by simp [Map.build, hd], by simp [Map.build, hd], ?_⟩
    simp [Set.build, Map.build, hd]
  · intro hnd gen lit
    have hd : hasDup m.keys = false := (hasDup_eq_false_iff m.keys).mpr hnd
    refine ⟨by simp [Map.build, hd], ?_⟩
    simp [Set.build, Map.build, hd]

/-- Witness for C3 at a concrete duplicate-keyed builder and a concrete
duplicate-free builder. -/
theorem duplicate_keys_panic_before_hashing_w :
    Map.build genA litA mbDup = ("", true) ∧
    (Map.build genA litA mbA).2 = false :=
  ⟨((duplicate_keys_panic_before_hashing mbDup).1 (by decide) genA genB litA litA).1,
   ((duplicate_keys_panic_before_hashing mbA).2 (by decide) genA litA).1⟩

/-- C9: when `Set::build` is called on a duplicate-keyed builder, the Set
wrapper prefix has already been written to the writer when the duplicate
check panics, so the failure leaves partial output; `Map::build` on the same
builder panics having written nothing. -/
theorem set_build_partial_output_on_duplicate {K : Type _} [DecidableEq K]
    [Inhabited K] (gen : List K → HashState) (lit : K → String) (s : Phf.Set K)
    (h : ¬s.map.keys.Nodup) :
    Set.build gen lit s = (s.map.path ++ "::Set \x7b map: ", true) ∧
    Map.build gen lit s.map = ("", true) := by
  have hd : hasDup s.map.keys = true := by
    cases h2 : hasDup s.map.keys with
    | false => exact absurd ((hasDup_eq_false_iff s.map.keys).mp h2) h
    | true => rfl
  constructor
  · simp [Set.build, Map.build, hd]
  · simp [Map.build, hd]

/-- Witness for C9 at a concrete duplicate-keyed set builder. -/
theorem set_build_partial_output_on_duplicate_w :
    Set.build genA litA sbDup = ("::phf::Set \x7b map: ", true) ∧
    Map.build genA litA sbDup.map = ("", true) :=
  set_build_partial_output_on_duplicate genA litA sbDup (by decide)

/-- C10: the duplicate check compares keys with the key type's equality, not
their byte representation: any two keys distinguished by equality but with
identical bytes pass the check, do not panic, and are handed to the
generator as byte-duplicates. -/
theorem dup_check_uses_key_equality_not_bytes {K : Type _} [DecidableEq K]
    [Inhabited K] (bytes : K → List Nat) (k1 k2 : K)
    (hne : k1 ≠ k2) (hb : bytes k1 = bytes k2)
    (gen : List K → HashState) (lit : K → String) (vs : List String)
    (path : String) :
    hasDup [k1, k2] = false ∧
    (Map.build gen lit ⟨[k1, k2], vs, path⟩).2 = false ∧
    ¬([k1, k2].map bytes).Nodup := by
  have hd : hasDup [k1, k2] = false :=
    (hasDup_eq_false_iff [k1, k2]).mpr (by simp [hne])
  refine ⟨hd, by simp [Map.build, hd], by simp [hb]⟩

/-- Witness for C10: a tagged key type whose equality also compares the tag,
with two distinct keys sharing the byte representation `[97]`. -/
theorem dup_check_uses_key_equality_not_bytes_w :
    hasDup [((0, [97]) : Nat × List Nat), (1, [97])] = false ∧
    (Map.build (fun _ => (⟨0, [(0, 0)], [0, 1]⟩ : HashState))
        (fun _ => "k") ⟨[((0, [97]) : Nat × List Nat), (1, [97])], [], "::phf"⟩).2
      = false ∧
    ¬([((0, [97]) : Nat × List Nat), (1, [97])].map Prod.snd).Nodup :=
  dup_check_uses_key_equality_not_bytes Prod.snd (0, [97]) (1, [97])
    (by decide) (by decide) (fun _ => ⟨0, [(0, 0)], [0, 1]⟩) (fun _ => "k") []
    "::phf"

theorem string_foldl_shift (l : List String) (s t : String) :
    l.foldl (fun a b => a ++ b) (s ++ t) = s ++ l.foldl (fun a b => a ++ b) t := by
  induction l generalizing t with
  | nil => simp
  | cons a l ih => rw [List.foldl_cons, List.foldl_cons, String.append_assoc, ih]

theorem string_foldl_append (l : List String) (s : String) :
    l.foldl (fun a b => a ++ b) s = s ++ String.join l :=
  calc l.foldl (fun a b => a ++ b) s
      = l.foldl (fun a b => a ++ b) (s ++ "") := by rw [String.append_empty]
    _ = s ++ l.foldl (fun a b => a ++ b) "" := string_foldl_shift l s ""
    _ = s ++ String.join l := rfl

theorem string_join_cons (a : String) (l : List String) :
    String.join (a :: l) = a ++ String.join l := by
  have h : String.join (a :: l) = l.foldl (fun x b => x ++ b) ("" ++ a) := rfl
  rw [h, String.empty_append]
  exact string_foldl_append l a

theorem foldl_dispText (l : List (Nat × Nat)) (s : String) :
    l.foldl (fun acc p =>
        acc ++ "\n        (" ++ toString p.1 ++ ", " ++ toString p.2 ++ "),") s =
      s ++ String.join (l.map dispText) := by
  induction l generalizing s with
  | nil => simp [String.join]
  | cons a l ih =>
    rw [List.foldl_cons, ih, List.map_cons, string_join_cons]
    simp [dispText, String.append_assoc]

theorem foldl_entryText {K : Type _} [Inhabited K] (lit : K → String)
    (ks : List K) (vs : List String) (l : List Nat) (s : String) :
    l.foldl (fun acc idx =>
        acc ++ "\n        (" ++ lit (ks.getD idx default) ++ ", " ++
          vs.getD idx "" ++ "),") s =
      s ++ String.join ((entryPairs lit ks vs l).map entryText) := by
  induction l generalizing s with
  | nil => simp [String.join, entryPairs]
  | cons a l ih =>
    rw [List.foldl_cons, ih]
    simp only [entryPairs, List.map_cons, string_join_cons]
    simp only [entryText, String.append_assoc]

/-- C4: on success `Map::build` emits the structured literal with exactly the
three fields `key`, `disps`, `entries` in order, and the `i`-th emitted entry
pair is the key at index `map i` paired with the value supplied for that same
index. -/
theorem map_build_output_structure {K : Type _} [DecidableEq K] [Inhabited K]
    (gen : List K → HashState) (lit : K → String) (m : Map K)
    (h : hasDup m.keys = false) :
    Map.build gen lit m =
      (mapLiteral m.path (gen m.keys).key (gen m.keys).disps
        (entryPairs lit m.keys m.values (gen m.keys).map), false) ∧
    ∀ i, i < (gen m.keys).map.length →
      (entryPairs lit m.keys m.values (gen m.keys).map).getD i ("", "") =
        (lit (m.keys.getD ((gen m.keys).map.getD i 0) default),
          m.values.getD ((gen m.keys).map.getD i 0) "") := by
  constructor
  · simp only [Map.build, h, Bool.false_eq_true, if_false]
    rw [foldl_dispText, foldl_entryText]
    simp [mapLiteral, String.append_assoc]
  · intro i hi
    have hi2 : i < (entryPairs lit m.keys m.values (gen m.keys).map).length := by
      simpa [entryPairs] using hi
    rw [List.getD_eq_getElem _ _ hi2, List.getD_eq_getElem _ _ hi]
    simp [entryPairs]

/-- Witness for C4 at a concrete builder and generator. -/
theorem map_build_output_structure_w :
    Map.build genA litA mbA =
      (mapLiteral mbA.path (genA mbA.keys).key (genA mbA.keys).disps
        (entryPairs litA mbA.keys mbA.values (genA mbA.keys).map), false) ∧
    ∀ i, i < (genA mbA.keys).map.length →
      (entryPairs litA mbA.keys mbA.values (genA mbA.keys).map).getD i ("", "") =
        (litA (mbA.keys.getD ((genA mbA.keys).map.getD i 0) default),
          mbA.values.getD ((genA mbA.keys).map.getD i 0) "") :=
  map_build_output_structure genA litA mbA (by decide)

theorem foldl_entry_fields {K : Type _} (l : List (K × String)) (m : Map K) :
    l.foldl (fun b kv => b.entry kv.1 kv.2) m =
      ⟨m.keys ++ l.map Prod.fst, m.values ++ l.map Prod.snd, m.path⟩ := by
  induction l generalizing m with
  | nil => simp
  | cons a l ih =>
    rw [List.foldl_cons, ih]
    simp [Map.entry]

theorem map_snd_getD {K : Type _} [Inhabited K] (l : List (K × String)) (j : Nat) :
    (l.map Prod.snd).getD j "" = (l.getD j (default, "")).2 := by
  induction l generalizing j with
  | nil => simp
  | cons a l ih =>
    cases j with
    | zero => simp
    | succ j => simpa using ih j

/-- C5: the value text emitted for an entry's key is, character for
character, the value string passed to `entry` — values are appended to the
builder verbatim and re-emitted verbatim at that key's slot. -/
theorem values_pass_through_verbatim {K : Type _} [DecidableEq K] [Inhabited K]
    (l : List (K × String)) (gen : List K → HashState) (lit : K → String)
    (m : Map K) (hm : m = l.foldl (fun b kv => b.entry kv.1 kv.2) Map.new) :
    m.values = l.map Prod.snd ∧
    ∀ i, i < (gen m.keys).map.length →
      ((entryPairs lit m.keys m.values (gen m.keys).map).getD i ("", "")).2 =
        (l.getD ((gen m.keys).map.getD i 0) (default, "")).2 := by
  have hfields : m = ⟨l.map Prod.fst, l.map Prod.snd, "::phf"⟩ := by
    rw [hm, foldl_entry_fields]
    simp [Map.new]
  constructor
  · rw [hfields]
  · intro i hi
    have hi2 : i < (entryPairs lit m.keys m.values (gen m.keys).map).length := by
      simpa [entryPairs] using hi
    have hv : m.values = l.map Prod.snd := by rw [hfields]
    rw [List.getD_eq_getElem _ _ hi2, List.getD_eq_getElem _ _ hi]
    simp only [entryPairs, List.getElem_map]
    simp only [hv]
    exact map_snd_getD l _

/-- Witness for C5 at a concrete entry list. -/
theorem values_pass_through_verbatim_w :
    mbA.values = [("a", "VA"), ("b", "VB")].map Prod.snd ∧
    ∀ i, i < (genA mbA.keys).map.length →
      ((entryPairs litA mbA.keys mbA.values (genA mbA.keys).map).getD i
          ("", "")).2 =
        ([("a", "VA"), ("b", "VB")].getD ((genA mbA.keys).map.getD i 0)
            (default, "")).2 :=
  values_pass_through_verbatim [("a", "VA"), ("b", "VB")] genA litA mbA
    (by decide)

theorem foldl_set_entry {K : Type _} (l : List K) (s : Phf.Set K) :
    (l.foldl Set.entry s).map =
      ⟨s.map.keys ++ l, s.map.values ++ List.replicate l.length "()",
        s.map.path⟩ := by
  induction l generalizing s with
  | nil => simp
  | cons a l ih =>
    rw [List.foldl_cons, ih]
    simp [Set.entry, Map.entry, List.replicate_succ]

set_option maxRecDepth 100000 in
/-- C7 counterexample: on a concrete one-key set builder the emitted Set
literal does contain the unit value literal `()` — the entry is printed as
`("a", ())` — refuting the claim that the Set output grammar omits the
trivial values. -/
theorem set_output_contains_unit_values :
    (Set.build genB litA sbA).1 =
      "::phf::Set \x7b map: ::phf::Map \x7b\n    key: 0,\n    disps: &[\n        (0, 0),\n    ],\n    entries: &[\n        (\"a\", ()),\n    ],\n\x7d \x7d" ∧
    List.IsInfix ("(\"a\", ()),".data) ((Set.build genB litA sbA).1).data := by
  constructor
  · decide
  · decide

/-- C7 as amended: the Set builder reuses the Map machinery with the
sentinel unit value `"()"` for every entry, and its output wraps the full
Map literal — including the unit value literals, which are not omitted — in
`path::Set \x7b map: … \x7d`. -/
theorem set_build_wraps_map_build {K : Type _} [DecidableEq K] [Inhabited K]
    (gen : List K → HashState) (lit : K → String) (l : List K) (s : Phf.Set K)
    (hs : s = l.foldl Set.entry Set.new) :
    s.map.values = List.replicate l.length "()" ∧
    (hasDup s.map.keys = false →
      Set.build gen lit s =
        (s.map.path ++ "::Set \x7b map: " ++ (Map.build gen lit s.map).1 ++
          " \x7d", false) ∧
      ∀ i, i < (gen s.map.keys).map.length →
        (gen s.map.keys).map.getD i 0 < l.length →
        ((entryPairs lit s.map.keys s.map.values
            (gen s.map.keys).map).getD i ("", "")).2 = "()") := by
  have hmap : s.map =
      ⟨l, List.replicate l.length "()", "::phf"⟩ := by
    rw [hs, foldl_set_entry]
    simp [Set.new, Map.new]
  constructor
  · rw [hmap]
  · intro h
    have hsnd : (Map.build gen lit s.map).2 = false := by
      simp [Map.build, h]
    constructor
    · rw [Set.build, hsnd]
      simp [String.append_assoc]
    · intro i hi hidx
      have hi2 : i < (entryPairs lit s.map.keys s.map.values
          (gen s.map.keys).map).length := by
        simpa [entryPairs] using hi
      have hv : s.map.values = List.replicate l.length "()" := by rw [hmap]
      have hidx2 : (gen s.map.keys).map[i] < l.length := by
        rwa [List.getD_eq_getElem _ _ hi] at hidx
      rw [List.getD_eq_getElem _ _ hi2]
      simp only [entryPairs, List.getElem_map]
      simp only [hv]
      rw [List.getD_eq_getElem _ _ (by simpa using hidx2)]
      simp

/-- Witness for the amended C7 at a concrete one-key set builder. -/
theorem set_build_wraps_map_build_w :
    sbA.map.values = List.replicate ["a"].length "()" ∧
    (hasDup sbA.map.keys = false →
      Set.build genB litA sbA =
        (sbA.map.path ++ "::Set \x7b map: " ++ (Map.build genB litA sbA.map).1 ++
          " \x7d", false) ∧
      ∀ i, i < (genB sbA.map.keys).map.length →
        (genB sbA.map.keys).map.getD i 0 < ["a"].length →
        ((entryPairs litA sbA.map.keys sbA.map.values
            (genB sbA.map.keys).map).getD i ("", "")).2 = "()") :=
  set_build_wraps_map_build genB litA ["a"] sbA (by decide)

/-- C8: the construction driver repeatedly draws the next seed and retries
`try_construct` until an attempt succeeds: any returned value comes from a
successful attempt (earlier drawn seeds all having failed), and when every
attempt fails no unfolding of the loop ever returns a value — failure is
never surfaced and the loop itself has no attempt cap. -/
theorem construct_retries_until_success (ph : Nat → List Nat → Nat)
    (sh : Nat → Nat → List Nat → Nat) (seeds : Nat → Nat)
    (keys : List (List Nat)) :
    (∀ fuel i st, construct ph sh seeds keys i fuel = some st →
      ∃ j, i ≤ j ∧ j < i + fuel ∧ tryConstruct ph sh (seeds j) keys = some st ∧
        ∀ m2, i ≤ m2 → m2 < j → tryConstruct ph sh (seeds m2) keys = none) ∧
    ((∀ j, tryConstruct ph sh (seeds j) keys = none) →
      ∀ fuel i, construct ph sh seeds keys i fuel = none) := by
  constructor
  · intro fuel
    induction fuel with
    | zero => intro i st h; simp [construct] at h
    | succ fuel ih =>
      intro i st h
      rw [construct] at h
      cases ha : tryConstruct ph sh (seeds i) keys with
      | some st2 =>
        rw [ha] at h
        simp at h
        exact ⟨i, le_refl i, by omega, by rw [ha, h], fun m2 h1 h2 => by omega⟩
      | none =>
        rw [ha] at h
        simp at h
        obtain ⟨j, hj1, hj2, hj3, hj4⟩ := ih (i + 1) st h
        exact ⟨j, by omega, by omega, hj3, fun m2 h1 h2 => by
          rcases Nat.eq_or_lt_of_le h1 with rfl | h3
          · exact ha
          · exact hj4 m2 h3 h2⟩
  · intro hall fuel
    induction fuel with
    | zero => intro i; simp [construct]
    | succ fuel ih =>
      intro i
      rw [construct, hall i]
      exact ih (i + 1)

/-- Witness for C8 at a concrete successful construction. -/
theorem construct_retries_until_success_w :
    ∃ j, 0 ≤ j ∧ j < 0 + 1 ∧
      tryConstruct phA shA ((fun i => i) j) [[0], [1]] =
        some ⟨0, [(0, 0)], [0, 1]⟩ ∧
      ∀ m2, 0 ≤ m2 → m2 < j →
        tryConstruct phA shA ((fun i => i) m2) [[0], [1]] = none :=
  (construct_retries_until_success phA shA (fun i => i) [[0], [1]]).1 1 0
    ⟨0, [(0, 0)], [0, 1]⟩ (by decide)

theorem hexVal_hexDigitChar (d : Nat) (h : d < 16) :
    hexVal (hexDigitChar d) = d := by
  unfold hexDigitChar hexVal
  split <;> split <;> omega

theorem isHexDigit_hexDigitChar (d : Nat) (h : d < 16) :
    isHexDigit (hexDigitChar d) = true := by
  unfold hexDigitChar isHexDigit
  split <;> (simp only [Bool.or_eq_true, Bool.and_eq_true, decide_eq_true_eq]
             omega)

theorem hexDigitChar_ne_125 (d : Nat) (h : d < 16) : hexDigitChar d ≠ 125 := by
  unfold hexDigitChar
  split <;> omega

theorem foldl_hexVal_map (L : List Nat) (x : Nat) (h : ∀ d ∈ L, d < 16) :
    (L.map hexDigitChar).foldl (fun a c => 16 * a + hexVal c) x =
      L.foldl (fun a d => 16 * a + d) x := by
  induction L generalizing x with
  | nil => rfl
  | cons d L ih =>
    simp only [List.map_cons, List.foldl_cons]
    rw [hexVal_hexDigitChar d (h d (by simp))]
    exact ih _ fun e he => h e (by simp [he])

theorem foldl_base16_reverse (L : List Nat) (x : Nat) :
    L.reverse.foldl (fun a d => 16 * a + d) x =
      x * 16 ^ L.length + Nat.ofDigits 16 L := by
  induction L generalizing x with
  | nil => simp [Nat.ofDigits]
  | cons d L ih =>
    rw [List.reverse_cons, List.foldl_append, ih]
    simp only [List.foldl_cons, List.foldl_nil, Nat.ofDigits_cons,
      List.length_cons]
    ring

theorem hexRepr_spec (n : Nat) :
    hexRepr n ≠ [] ∧ (∀ c ∈ hexRepr n, isHexDigit c = true ∧ c ≠ 125) ∧
      (hexRepr n).foldl (fun a c => 16 * a + hexVal c) 0 = n := by
  by_cases hn : n = 0
  · subst hn
    refine ⟨by simp [hexRepr], ?_, by simp [hexRepr]; decide⟩
    intro c hc
    simp [hexRepr] at hc
    subst hc
    exact ⟨by decide, by decide⟩
  · have hdig : ∀ d ∈ Nat.digits 16 n, d < 16 := fun d hd =>
      Nat.digits_lt_base (by norm_num) hd
    have hrev : ∀ d ∈ (Nat.digits 16 n).reverse, d < 16 := by
      intro d hd
      exact hdig d (List.mem_reverse.mp hd)
    refine ⟨?_, ?_, ?_⟩
    · simp only [hexRepr, if_neg hn, toHexDigits]
      simp [Nat.digits_ne_nil_iff_ne_zero, hn]
    · intro c hc
      simp only [hexRepr, if_neg hn, toHexDigits, List.mem_map] at hc
      obtain ⟨d, hd, rfl⟩ := hc
      have hd16 := hrev d hd
      exact ⟨isHexDigit_hexDigitChar d hd16, hexDigitChar_ne_125 d hd16⟩
    · simp only [hexRepr, if_neg hn, toHexDigits]
      rw [foldl_hexVal_map _ _ hrev, foldl_base16_reverse]
      simp [Nat.ofDigits_digits]

theorem parseUni_append (ds rest : List Nat) (acc : Nat) (seen : Bool)
    (hds : ∀ c ∈ ds, isHexDigit c = true ∧ c ≠ 125)
    (hne : seen = true ∨ ds ≠ []) :
    parseUni acc seen (ds ++ 125 :: rest) =
      consCP (ds.foldl (fun a c => 16 * a + hexVal c) acc) (parseBody rest) := by
  induction ds generalizing acc seen with
  | nil =>
    rcases hne with h | h
    · subst h
      rw [List.nil_append, parseUni]
      simp
    · exact absurd rfl h
  | cons c ds ih =>
    obtain ⟨hhex, hne125⟩ := hds c (by simp)
    rw [List.cons_append, parseUni]
    simp only [if_neg hne125, hhex, if_pos]
    rw [List.foldl_cons]
    exact ih _ _ (fun e he => hds e (by simp [he])) (Or.inl rfl)

theorem parseBody_escapeChar (c : Nat) (rest : List Nat) :
    parseBody (escapeChar c ++ rest) = consCP c (parseBody rest) := by
  by_cases h9 : c = 9
  · subst h9; rw [show escapeChar 9 = [92, 116] from rfl]
    rw [List.cons_append, List.cons_append, List.nil_append, parseBody.eq_def]
    norm_num
  · by_cases h13 : c = 13
    · subst h13; rw [show escapeChar 13 = [92, 114] from rfl]
      rw [List.cons_append, List.cons_append, List.nil_append, parseBody.eq_def]
      norm_num
    · by_cases h10 : c = 10
      · subst h10; rw [show escapeChar 10 = [92, 110] from rfl]
        rw [List.cons_append, List.cons_append, List.nil_append,
          parseBody.eq_def]
        norm_num
      · by_cases h92 : c = 92
        · subst h92; rw [show escapeChar 92 = [92, 92] from rfl]
          rw [List.cons_append, List.cons_append, List.nil_append,
            parseBody.eq_def]
          norm_num
        · by_cases h39 : c = 39
          · subst h39; rw [show escapeChar 39 = [92, 39] from rfl]
            rw [List.cons_append, List.cons_append, List.nil_append,
              parseBody.eq_def]
            norm_num
          · by_cases h34 : c = 34
            · subst h34; rw [show escapeChar 34 = [92, 34] from rfl]
              rw [List.cons_append, List.cons_append, List.nil_append,
                parseBody.eq_def]
              norm_num
            · by_cases hpr : 32 ≤ c ∧ c ≤ 126
              · rw [show escapeChar c = [c] from by
                  simp [escapeChar, h9, h13, h10, h92, h39, h34, hpr]]
                rw [List.cons_append, List.nil_append, parseBody.eq_def]
                simp [h34, h92, hpr]
              · rw [show escapeChar c = [92, 117, 123] ++ hexRepr c ++ [125]
                    from by simp [escapeChar, h9, h13, h10, h92, h39, h34, hpr]]
                obtain ⟨hne, hds, hfold⟩ := hexRepr_spec c
                have hshape : ([92, 117, 123] ++ hexRepr c ++ [125]) ++ rest =
                    92 :: 117 :: 123 :: (hexRepr c ++ 125 :: rest) := by
                  simp
                rw [hshape, parseBody.eq_def]
                norm_num
                rw [parseUni_append (hexRepr c) rest 0 false hds (Or.inr hne),
                  hfold]

theorem parseBody_strLit (s rest : List Nat) :
    parseBody (s.flatMap escapeChar ++ 34 :: rest) = some (s, rest) := by
  induction s with
  | nil =>
    rw [List.flatMap_nil, List.nil_append, parseBody.eq_def]
    norm_num
  | cons c s ih =>
    rw [List.flatMap_cons, List.append_assoc, parseBody_escapeChar, ih]
    rfl

theorem parseByteBody_escapeByte (b : Nat) (hb : b < 256) (rest : List Nat) :
    parseByteBody (escapeByte b ++ rest) = consCP b (parseByteBody rest) := by
  by_cases h9 : b = 9
  · subst h9; rw [show escapeByte 9 = [92, 116] from rfl]
    rw [List.cons_append, List.cons_append, List.nil_append,
      parseByteBody.eq_def]
    norm_num
  · by_cases h13 : b = 13
    · subst h13; rw [show escapeByte 13 = [92, 114] from rfl]
      rw [List.cons_append, List.cons_append, List.nil_append,
        parseByteBody.eq_def]
      norm_num
    · by_cases h10 : b = 10
      · subst h10; rw [show escapeByte 10 = [92, 110] from rfl]
        rw [List.cons_append, List.cons_append, List.nil_append,
          parseByteBody.eq_def]
        norm_num
      · by_cases h92 : b = 92
        · subst h92; rw [show escapeByte 92 = [92, 92] from rfl]
          rw [List.cons_append, List.cons_append, List.nil_append,
            parseByteBody.eq_def]
          norm_num
        · by_cases h39 : b = 39
          · subst h39; rw [show escapeByte 39 = [92, 39] from rfl]
            rw [List.cons_append, List.cons_append, List.nil_append,
              parseByteBody.eq_def]
            norm_num
          · by_cases h34 : b = 34
            · subst h34; rw [show escapeByte 34 = [92, 34] from rfl]
              rw [List.cons_append, List.cons_append, List.nil_append,
                parseByteBody.eq_def]
              norm_num
            · by_cases hpr : 32 ≤ b ∧ b ≤ 126
              · rw [show escapeByte b = [b] from by
                  simp [escapeByte, h9, h13, h10, h92, h39, h34, hpr]]
                rw [List.cons_append, List.nil_append, parseByteBody.eq_def]
                simp [h34, h92, hpr]
              · rw [show escapeByte b =
                    [92, 120, hexDigitChar (b / 16), hexDigitChar (b % 16)]
                    from by simp [escapeByte, h9, h13, h10, h92, h39, h34, hpr]]
                have hq : b / 16 < 16 := by omega
                have hr : b % 16 < 16 := by omega
                rw [List.cons_append, List.cons_append, List.cons_append,
                  List.cons_append, List.nil_append, parseByteBody.eq_def]
                norm_num
                rw [if_pos ⟨isHexDigit_hexDigitChar _ hq,
                  isHexDigit_hexDigitChar _ hr⟩]
                rw [hexVal_hexDigitChar _ hq, hexVal_hexDigitChar _ hr]
                have : 16 * (b / 16) + b % 16 = b := by omega
                rw [this]

theorem parseByteBody_flatMap (bs rest : List Nat) (h : ∀ b ∈ bs, b < 256) :
    parseByteBody (bs.flatMap escapeByte ++ 34 :: rest) = some (bs, rest) := by
  induction bs with
  | nil =>
    rw [List.flatMap_nil, List.nil_append, parseByteBody.eq_def]
    norm_num
  | cons b bs ih =>
    rw [List.flatMap_cons, List.append_assoc,
      parseByteBody_escapeByte b (h b (by simp)),
      ih fun e he => h e (by simp [he])]
    rfl

/-- C6: key literals round-trip — unescaping the emitted quoted, escaped
literal per the target grammar's string-literal rules recovers exactly the
original key, both for text keys (`char::escape_default`) and for binary
keys (`ascii::escape_default` plus the `b"…" as &[u8]` wrapper). -/
theorem key_literal_roundtrip :
    (∀ s : List Nat, unescapeStrLit (strLit s) = some s) ∧
    ∀ bs : List Nat, (∀ b ∈ bs, b < 256) →
      unescapeByteLit (byteLit bs) = some bs := by
  constructor
  · intro s
    have h : strLit s = 34 :: (s.flatMap escapeChar ++ 34 :: []) := by
      simp [strLit]
    rw [h, unescapeStrLit, parseBody_strLit]
  · intro bs hb
    have h : byteLit bs = 98 :: 34 :: (bs.flatMap escapeByte ++ 34 :: castSuffix) := by
      simp [byteLit]
    rw [h, unescapeByteLit, parseByteBody_flatMap bs castSuffix hb]
    simp

/-- Witness for C6 at a concrete binary key. -/
theorem key_literal_roundtrip_w :
    (∀ b ∈ ([0, 97, 255] : List Nat), b < 256) ∧
    unescapeByteLit (byteLit [0, 97, 255]) = some [0, 97, 255] :=
  ⟨by decide, key_literal_roundtrip.2 [0, 97, 255] (by decide)⟩

theorem getD_set_self {α : Type _} (l : List α) (s : Nat) (a d : α)
    (h : s < l.length) : (l.set s a).getD s d = a := by
  induction l generalizing s with
  | nil => simp at h
  | cons o t ih =>
    cases s with
    | zero => rfl
    | succ s => simpa using ih s (by simpa using h)

theorem getD_set_ne {α : Type _} (l : List α) (s t : Nat) (a d : α)
    (h : s ≠ t) : (l.set s a).getD t d = l.getD t d := by
  induction l generalizing s t with
  | nil => rfl
  | cons o l ih =>
    cases s with
    | zero =>
      cases t with
      | zero => exact absurd rfl h
      | succ t => rfl
    | succ s =>
      cases t with
      | zero => rfl
      | succ t => simpa using ih s t fun he => h (by rw [he])

theorem setMany_cons (tbl : List (Option Nat)) (p : Nat × Nat)
    (ps : List (Nat × Nat)) :
    setMany tbl (p :: ps) = setMany (tbl.set p.1 (some p.2)) ps := rfl

theorem setMany_length (tbl : List (Option Nat)) (ps : List (Nat × Nat)) :
    (setMany tbl ps).length = tbl.length := by
  induction ps generalizing tbl with
  | nil => rfl
  | cons p ps ih => rw [setMany_cons, ih, List.length_set]

theorem setMany_getD_not_mem (tbl : List (Option Nat)) (ps : List (Nat × Nat))
    (s : Nat) (h : ∀ p ∈ ps, p.1 ≠ s) :
    (setMany tbl ps).getD s none = tbl.getD s none := by
  induction ps generalizing tbl with
  | nil => rfl
  | cons p ps ih =>
    rw [setMany_cons, ih _ fun q hq => h q (by simp [hq]),
      getD_set_ne _ _ _ _ _ (h p (by simp))]

theorem setMany_getD_mem (tbl : List (Option Nat)) (ps : List (Nat × Nat))
    (s k : Nat) (hnd : (ps.map Prod.fst).Nodup) (hmem : (s, k) ∈ ps)
    (hlen : s < tbl.length) :
    (setMany tbl ps).getD s none = some k := by
  induction ps generalizing tbl with
  | nil => simp at hmem
  | cons p ps ih =>
    rw [setMany_cons]
    rcases List.mem_cons.mp hmem with heq | hmem2
    · have hs : p.1 = s := by rw [← heq]
      have hk : p.2 = k := by rw [← heq]
      have hnotin : ∀ q ∈ ps, q.1 ≠ s := by
        intro q hq
        have := (List.nodup_cons.mp hnd).1
        intro hqs
        exact this (hs ▸ hqs ▸ List.mem_map_of_mem Prod.fst hq)
      rw [setMany_getD_not_mem _ _ _ hnotin, hs, hk,
        getD_set_self _ _ _ _ hlen]
    · exact ih _ (List.nodup_cons.mp hnd).2 hmem2
        (by rw [List.length_set]; exact hlen)

theorem setMany_getD_preserve (tbl : List (Option Nat)) (ps : List (Nat × Nat))
    (s k : Nat) (h : tbl.getD s none = some k)
    (hall : ∀ p ∈ ps, tbl.getD p.1 none = none) :
    (setMany tbl ps).getD s none = some k := by
  rw [setMany_getD_not_mem _ _ _ fun p hp hps => by
    rw [← hps] at h; rw [hall p hp] at h; exact Option.noConfusion h]
  exact h

theorem occ_cons_none (t : List (Option Nat)) : occ (none :: t) = occ t := rfl

theorem occ_cons_some (a : Nat) (t : List (Option Nat)) :
    occ (some a :: t) = a :: occ t := rfl

theorem occ_set (l : List (Option Nat)) (s k : Nat) (hs : s < l.length)
    (hnone : l.getD s none = none) :
    List.Perm (occ (l.set s (some k))) (k :: occ l) := by
  induction l generalizing s with
  | nil => simp at hs
  | cons o t ih =>
    cases s with
    | zero =>
      have ho : o = none := hnone
      subst ho
      exact List.Perm.refl _
    | succ s =>
      have hs2 : s < t.length := by simpa using hs
      have hn2 : t.getD s none = none := hnone
      cases o with
      | none =>
        rw [List.set_cons_succ, occ_cons_none, occ_cons_none]
        exact ih s hs2 hn2
      | some a =>
        rw [List.set_cons_succ, occ_cons_some, occ_cons_some]
        exact ((ih s hs2 hn2).cons a).trans (List.Perm.swap k a (occ t))

theorem occ_setMany (tbl : List (Option Nat)) (ps : List (Nat × Nat))
    (hnd : (ps.map Prod.fst).Nodup)
    (hall : ∀ p ∈ ps, p.1 < tbl.length ∧ tbl.getD p.1 none = none) :
    List.Perm (occ (setMany tbl ps)) (ps.map Prod.snd ++ occ tbl) := by
  induction ps generalizing tbl with
  | nil => exact List.Perm.refl _
  | cons p ps ih =>
    rw [setMany_cons]
    have hp := hall p (by simp)
    have hall2 : ∀ q ∈ ps, q.1 < (tbl.set p.1 (some p.2)).length ∧
        (tbl.set p.1 (some p.2)).getD q.1 none = none := by
      intro q hq
      have hq2 := hall q (by simp [hq])
      have hne : p.1 ≠ q.1 := by
        intro he
        exact (List.nodup_cons.mp hnd).1 (he ▸ List.mem_map_of_mem Prod.fst hq)
      refine ⟨by rw [List.length_set]; exact hq2.1, ?_⟩
      rw [getD_set_ne _ _ _ _ _ hne]
      exact hq2.2
    have h1 := ih _ (List.nodup_cons.mp hnd).2 hall2
    have h2 : List.Perm (occ (tbl.set p.1 (some p.2))) (p.2 :: occ tbl) :=
      occ_set tbl p.1 p.2 hp.1 hp.2
    exact (h1.trans (h2.append_left _)).trans List.perm_middle

theorem findPair_ok (sh : Nat → Nat → List Nat → Nat) (cap : Nat)
    (keys : List (List Nat)) (tbl : List (Option Nat)) (bkeys : List Nat)
    (d1 d2 : Nat) (h : findPair sh cap keys tbl bkeys = some (d1, d2)) :
    pairOK tbl (bucketSlots sh cap d1 d2 keys bkeys) := by
  obtain ⟨a, -, ha⟩ := List.exists_of_findSome?_eq_some h
  obtain ⟨b, -, hb⟩ := List.exists_of_findSome?_eq_some ha
  by_cases hok : pairOK tbl (bucketSlots sh cap a b keys bkeys)
  · rw [if_pos hok] at hb
    injection hb with hb2
    have h1 : a = d1 := congrArg Prod.fst hb2
    have h2 : b = d2 := congrArg Prod.snd hb2
    subst h1
    subst h2
    exact hok
  · rw [if_neg hok] at hb
    exact Option.noConfusion hb

theorem mem_zip_map {α β : Type _} (f : α → β) (l : List α) (a : α)
    (h : a ∈ l) : (f a, a) ∈ (l.map f).zip l := by
  induction l with
  | nil => simp at h
  | cons x l ih =>
    rcases List.mem_cons.mp h with rfl | h2
    · simp
    · simp only [List.map_cons, List.zip_cons_cons, List.mem_cons]
      exact Or.inr (ih h2)

theorem resolve_occ (sh : Nat → Nat → List Nat → Nat) (cap : Nat)
    (keys : List (List Nat)) (hcap : 0 < cap) :
    ∀ (bs : List Bucket) (tbl : List (Option Nat))
      (disps dfin : List (Nat × Nat)) (tfin : List (Option Nat)),
      tbl.length = cap →
      resolveBuckets sh cap keys bs tbl disps = some (dfin, tfin) →
      tfin.length = cap ∧
        List.Perm (occ tfin) (bs.flatMap Bucket.keys ++ occ tbl) := by
  intro bs
  induction bs with
  | nil =>
    intro tbl disps dfin tfin hlen h
    rw [resolveBuckets] at h
    injection h with h2
    have hd : disps = dfin := congrArg Prod.fst h2
    have ht : tbl = tfin := congrArg Prod.snd h2
    subst hd
    subst ht
    exact ⟨hlen, by simp⟩
  | cons b bs ih =>
    intro tbl disps dfin tfin hlen h
    rw [resolveBuckets] at h
    cases hf : findPair sh cap keys tbl b.keys with
    | none => rw [hf] at h; exact Option.noConfusion h
    | some p =>
      obtain ⟨d1, d2⟩ := p
      rw [hf] at h
      have hok := findPair_ok sh cap keys tbl b.keys d1 d2 hf
      have hlen2 : (placeBucket tbl b.keys
          (bucketSlots sh cap d1 d2 keys b.keys)).length = cap := by
        rw [placeBucket, setMany_length, hlen]
      obtain ⟨hfinlen, hperm⟩ := ih _ _ _ _ hlen2 h
      refine ⟨hfinlen, ?_⟩
      have hzf : ((bucketSlots sh cap d1 d2 keys b.keys).zip b.keys).map
          Prod.fst = bucketSlots sh cap d1 d2 keys b.keys :=
        List.map_fst_zip _ _ (by simp [bucketSlots])
      have hzs : ((bucketSlots sh cap d1 d2 keys b.keys).zip b.keys).map
          Prod.snd = b.keys :=
        List.map_snd_zip _ _ (by simp [bucketSlots])
      have hplace : List.Perm
          (occ (placeBucket tbl b.keys (bucketSlots sh cap d1 d2 keys b.keys)))
          (b.keys ++ occ tbl) := by
        rw [placeBucket]
        have h1 := occ_setMany tbl
          ((bucketSlots sh cap d1 d2 keys b.keys).zip b.keys)
          (by rw [hzf]; exact hok.1)
          (by
            intro q hq
            have hq1 : q.1 ∈ bucketSlots sh cap d1 d2 keys b.keys :=
              (List.of_mem_zip hq).1
            refine ⟨?_, hok.2 q.1 hq1⟩
            have : ∃ j, q.1 = sh d1 d2 (keys.getD j []) % cap := by
              simp only [bucketSlots, List.mem_map, slotFor] at hq1
              obtain ⟨j, -, hj⟩ := hq1
              exact ⟨j, hj.symm⟩
            obtain ⟨j, hj⟩ := this
            rw [hj, hlen]
            exact Nat.mod_lt _ hcap)
        rw [hzs] at h1
        exact h1
      have hstep : List.Perm
          (bs.flatMap Bucket.keys ++ (b.keys ++ occ tbl))
          ((b :: bs).flatMap Bucket.keys ++ occ tbl) := by
        rw [List.flatMap_cons, ← List.append_assoc]
        exact List.perm_append_comm.append_right _
      exact (hperm.trans (hplace.append_left _)).trans hstep

theorem bucketCount_pos (n : Nat) (h : 0 < n) : 0 < bucketCount n := by
  unfold bucketCount lambdaVal
  omega

theorem sum_range_indicator (m x c : Nat) :
    ((List.range m).map fun b => if x = b then c else 0).sum =
      if x < m then c else 0 := by
  induction m with
  | zero => simp
  | succ m ih =>
    rw [List.range_succ, List.map_append, List.sum_append, ih]
    simp only [List.map_cons, List.map_nil, List.sum_cons, List.sum_nil]
    split_ifs <;> omega

theorem count_flatMap_buckets (n bc : Nat) (f : Nat → Nat)
    (hf : ∀ j, j < n → f j < bc) (a : Nat) :
    ((List.range bc).flatMap fun b =>
        (List.range n).filter fun j => f j = b).count a =
      (List.range n).count a := by
  rw [List.count_flatMap]
  have hterm : ∀ b : Nat,
      (List.count a ∘ fun b => (List.range n).filter fun j => f j = b) b =
        if f a = b then (List.range n).count a else 0 := by
    intro b
    simp only [Function.comp_apply]
    by_cases hfa : f a = b
    · rw [if_pos hfa]
      exact List.count_filter (by simp [hfa])
    · rw [if_neg hfa]
      refine List.count_eq_zero_of_not_mem fun hmem => ?_
      have := (List.mem_filter.mp hmem).2
      simp at this
      exact hfa this
  rw [List.map_congr_left fun b _ => hterm b, sum_range_indicator]
  by_cases ha : a < n
  · rw [if_pos (hf a ha)]
  · rw [List.count_eq_zero_of_not_mem (by simpa using ha)]
    split <;> rfl

theorem bucketsFor_flatMap_perm (ph : Nat → List Nat → Nat) (seed : Nat)
    (keys : List (List Nat)) :
    List.Perm ((bucketsFor ph seed keys).flatMap Bucket.keys)
      (List.range keys.length) := by
  simp only [bucketsFor]
  rw [List.flatMap_map]
  apply List.perm_iff_count.mpr
  intro a
  exact count_flatMap_buckets keys.length (bucketCount keys.length)
    (fun j => keyBucket ph seed (bucketCount keys.length) (keys.getD j []))
    (fun j hj => Nat.mod_lt _ (bucketCount_pos _ (Nat.pos_of_ne_zero
      fun h0 => by omega))) a

theorem count_some_occ (tbl : List (Option Nat)) (j : Nat) :
    tbl.count (some j) = (occ tbl).count j := by
  induction tbl with
  | nil => rfl
  | cons o t ih =>
    cases o with
    | none =>
      rw [occ_cons_none, List.count_cons, ih]
      simp
    | some k =>
      rw [occ_cons_some, List.count_cons, List.count_cons, ih]
      simp

theorem occ_full (tbl : List (Option Nat)) (h : (occ tbl).length = tbl.length) :
    ∀ s, s < tbl.length → tbl.getD s none ≠ none := by
  induction tbl with
  | nil => intro s hs; simp at hs
  | cons o t ih =>
    cases o with
    | none =>
      exfalso
      have hle : (occ t).length ≤ t.length := List.length_filterMap_le id t
      rw [occ_cons_none] at h
      simp at h
      omega
    | some a =>
      intro s hs
      cases s with
      | zero => simp
      | succ s =>
        have h2 : (occ t).length = t.length := by
          rw [occ_cons_some] at h
          simpa using h
        exact ih h2 s (by simpa using hs)

/-- C1: for a duplicate-free key set, a successful construction attempt
yields a slot table that is a permutation of the key indices — the table has
one slot per key, every key index occupies exactly one slot (so no slot
holds two indices and no two distinct keys share a slot), and every slot is
occupied. -/
theorem construction_slot_table_is_permutation (ph : Nat → List Nat → Nat)
    (sh : Nat → Nat → List Nat → Nat) (seed : Nat) (keys : List (List Nat))
    (disps : List (Nat × Nat)) (tbl : List (Option Nat)) (hnd : keys.Nodup)
    (h : tryConstructAux ph sh seed keys = some (disps, tbl)) :
    tbl.length = keys.length ∧
    (∀ j, j < keys.length → tbl.count (some j) = 1) ∧
    (∀ s, s < tbl.length → tbl.getD s none ≠ none) := by
  simp only [tryConstructAux] at h
  by_cases hn : keys.length = 0
  · have hkeys : keys = [] := List.length_eq_zero.mp hn
    subst hkeys
    have h0 : resolveBuckets sh (List.length ([] : List (List Nat))) []
        (List.insertionSort bucketLE (bucketsFor ph seed []))
        (List.replicate (List.length ([] : List (List Nat))) none)
        (List.replicate (bucketCount (List.length ([] : List (List Nat))))
          (0, 0)) = some ([], []) := rfl
    rw [h0] at h
    injection h with h2
    have ht : ([] : List (Option Nat)) = tbl := congrArg Prod.snd h2
    subst ht
    simp
  · have hpos : 0 < keys.length := Nat.pos_of_ne_zero hn
    obtain ⟨hlen, hperm⟩ := resolve_occ sh keys.length keys hpos _ _ _ _ _
      (by simp) h
    have hocc0 : occ (List.replicate keys.length none) = [] := by
      simp [occ]
    rw [hocc0, List.append_nil] at hperm
    have hsorted : List.Perm
        ((List.insertionSort bucketLE (bucketsFor ph seed keys)).flatMap
          Bucket.keys)
        ((bucketsFor ph seed keys).flatMap Bucket.keys) :=
      (List.perm_insertionSort bucketLE _).flatMap_right _
    have hfull : List.Perm (occ tbl) (List.range keys.length) :=
      (hperm.trans hsorted).trans (bucketsFor_flatMap_perm ph seed keys)
    refine ⟨hlen, ?_, ?_⟩
    · intro j hj
      rw [count_some_occ, hfull.count_eq]
      exact List.count_eq_one_of_mem (List.nodup_range _)
        (List.mem_range.mpr hj)
    · apply occ_full
      rw [hfull.length_eq, List.length_range, hlen]

/-- Witness for C1 at a concrete successful attempt. -/
theorem construction_slot_table_is_permutation_w :
    ([some 0, some 1] : List (Option Nat)).length = [[0], [1]].length ∧
    (∀ j, j < [[0], [1]].length →
      ([some 0, some 1] : List (Option Nat)).count (some j) = 1) ∧
    (∀ s, s < ([some 0, some 1] : List (Option Nat)).length →
      ([some 0, some 1] : List (Option Nat)).getD s none ≠ none) :=
  construction_slot_table_is_permutation phA shA 0 [[0], [1]] [(0, 0)]
    [some 0, some 1] (by decide) (by decide)

theorem getD_map_lt {α β : Type _} (f : α → β) (l : List α) (i : Nat) (d : β)
    (d0 : α) (h : i < l.length) : (l.map f).getD i d = f (l.getD i d0) := by
  rw [List.getD_eq_getElem _ _ (by simpa using h), List.getD_eq_getElem _ _ h,
    List.getElem_map]

theorem resolve_lookup (sh : Nat → Nat → List Nat → Nat) (cap : Nat)
    (keys : List (List Nat)) (hcap : 0 < cap) :
    ∀ (bs : List Bucket) (tbl : List (Option Nat))
      (disps dfin : List (Nat × Nat)) (tfin : List (Option Nat)),
      tbl.length = cap →
      (bs.map Bucket.idx).Nodup →
      (∀ b ∈ bs, b.idx < disps.length) →
      resolveBuckets sh cap keys bs tbl disps = some (dfin, tfin) →
      dfin.length = disps.length ∧ tfin.length = cap ∧
      (∀ s k, tbl.getD s none = some k → tfin.getD s none = some k) ∧
      (∀ i, (∀ b ∈ bs, b.idx ≠ i) →
        dfin.getD i (0, 0) = disps.getD i (0, 0)) ∧
      (∀ b ∈ bs, ∀ j ∈ b.keys,
        tfin.getD (slotFor sh cap (dfin.getD b.idx (0, 0)).1
          (dfin.getD b.idx (0, 0)).2 (keys.getD j [])) none = some j) := by
  intro bs
  induction bs with
  | nil =>
    intro tbl disps dfin tfin hlen hnd hidx h
    rw [resolveBuckets] at h
    injection h with h2
    have hd : disps = dfin := congrArg Prod.fst h2
    have ht : tbl = tfin := congrArg Prod.snd h2
    subst hd
    subst ht
    exact ⟨rfl, hlen, fun s k hk => hk, fun i _ => rfl,
      fun b hb => absurd hb (List.not_mem_nil b)⟩
  | cons b bs ih =>
    intro tbl disps dfin tfin hlen hnd hidx h
    rw [resolveBuckets] at h
    cases hf : findPair sh cap keys tbl b.keys with
    | none => rw [hf] at h; exact Option.noConfusion h
    | some p =>
      obtain ⟨d1, d2⟩ := p
      rw [hf] at h
      have hok := findPair_ok sh cap keys tbl b.keys d1 d2 hf
      have hlenslots : (bucketSlots sh cap d1 d2 keys b.keys).length =
          b.keys.length := by simp [bucketSlots]
      have hzf := List.map_fst_zip (bucketSlots sh cap d1 d2 keys b.keys)
        b.keys (le_of_eq hlenslots)
      have hlen2 : (placeBucket tbl b.keys
          (bucketSlots sh cap d1 d2 keys b.keys)).length = cap := by
        rw [placeBucket, setMany_length, hlen]
      have hnd2 : (bs.map Bucket.idx).Nodup := (List.nodup_cons.mp
        (by simpa using hnd)).2
      have hbidx : b.idx ∉ bs.map Bucket.idx := (List.nodup_cons.mp
        (by simpa using hnd)).1
      have hidxb : b.idx < disps.length := hidx b (by simp)
      have hidx2 : ∀ b2 ∈ bs, b2.idx < (disps.set b.idx (d1, d2)).length := by
        intro b2 hb2
        rw [List.length_set]
        exact hidx b2 (by simp [hb2])
      obtain ⟨hdlen, htlen, hpres, hdpres, hmain⟩ :=
        ih _ _ _ _ hlen2 hnd2 hidx2 h
      have hoccup : ∀ p2 ∈ (bucketSlots sh cap d1 d2 keys b.keys).zip b.keys,
          tbl.getD p2.1 none = none := fun p2 hp2 =>
        hok.2 p2.1 (List.of_mem_zip hp2).1
      refine ⟨by rw [hdlen, List.length_set], htlen, ?_, ?_, ?_⟩
      · intro s k hk
        apply hpres
        rw [placeBucket]
        exact setMany_getD_preserve _ _ _ _ hk hoccup
      · intro i hi
        rw [hdpres i fun b2 hb2 => hi b2 (by simp [hb2]),
          getD_set_ne _ _ _ _ _ (hi b (by simp))]
      · intro b2 hb2 j hj
        rcases List.mem_cons.mp hb2 with rfl | hb3
        · have hd : dfin.getD b2.idx (0, 0) = (d1, d2) := by
            rw [hdpres b2.idx fun b3 hb3 heq =>
              hbidx (heq ▸ List.mem_map_of_mem Bucket.idx hb3)]
            exact getD_set_self _ _ _ _ hidxb
          rw [hd]
          apply hpres
          rw [placeBucket]
          apply setMany_getD_mem
          · rw [hzf]
            exact hok.1
          · exact mem_zip_map _ b2.keys j hj
          · rw [hlen]
            exact Nat.mod_lt _ hcap
        · exact hmain b2 hb3 j hj

/-- C2: for every successful HashState and every key of the original set,
the lookup procedure — bucket via the primary hash, that bucket's
displacement pair from `disps`, slot via the secondary hash, read that slot
of `entries` — returns the slot holding that key's index, paired with the
key and its own associated value. -/
theorem lookup_returns_key_and_value (ph : Nat → List Nat → Nat)
    (sh : Nat → Nat → List Nat → Nat) (seed : Nat) (keys : List (List Nat))
    (values : List String) (st : HashState)
    (h : tryConstruct ph sh seed keys = some st) :
    ∀ i, i < keys.length →
      st.map.getD (lookupSlot ph sh seed st.disps keys.length
        (keys.getD i [])) 0 = i ∧
      (entriesOf keys values st).getD
        (lookupSlot ph sh seed st.disps keys.length (keys.getD i []))
        ([], "") = (keys.getD i [], values.getD i "") := by
  intro i hi
  have hpos : 0 < keys.length := by omega
  simp only [tryConstruct] at h
  cases haux : tryConstructAux ph sh seed keys with
  | none => rw [haux] at h; exact Option.noConfusion h
  | some r =>
    obtain ⟨disps, tbl⟩ := r
    rw [haux] at h
    injection h with h2
    subst h2
    simp only [tryConstructAux] at haux
    have hmapidx : (bucketsFor ph seed keys).map Bucket.idx =
        List.range (bucketCount keys.length) := by
      simp only [bucketsFor, List.map_map]
      exact List.map_id _
    have hsortperm := List.perm_insertionSort bucketLE
      (bucketsFor ph seed keys)
    have hnd : ((List.insertionSort bucketLE
        (bucketsFor ph seed keys)).map Bucket.idx).Nodup := by
      rw [(hsortperm.map Bucket.idx).nodup_iff, hmapidx]
      exact List.nodup_range _
    have hidx : ∀ b ∈ List.insertionSort bucketLE (bucketsFor ph seed keys),
        b.idx < (List.replicate (bucketCount keys.length)
          ((0 : Nat), (0 : Nat))).length := by
      intro b hb
      rw [List.length_replicate]
      have hb2 : b ∈ bucketsFor ph seed keys := hsortperm.mem_iff.mp hb
      have : b.idx ∈ (bucketsFor ph seed keys).map Bucket.idx :=
        List.mem_map_of_mem Bucket.idx hb2
      rw [hmapidx] at this
      exact List.mem_range.mp this
    obtain ⟨hdlen, htlen, hpres, hdpres, hmain⟩ :=
      resolve_lookup sh keys.length keys hpos _ _ _ _ _ (by simp) hnd hidx haux
    have hbc : disps.length = bucketCount keys.length := by
      rw [hdlen, List.length_replicate]
    have hbcpos : 0 < bucketCount keys.length := bucketCount_pos _ hpos
    have hkbi : keyBucket ph seed (bucketCount keys.length) (keys.getD i []) <
        bucketCount keys.length := Nat.mod_lt _ hbcpos
    have hbmem : (⟨keyBucket ph seed (bucketCount keys.length)
          (keys.getD i []),
        (List.range keys.length).filter fun j =>
          keyBucket ph seed (bucketCount keys.length) (keys.getD j []) =
            keyBucket ph seed (bucketCount keys.length) (keys.getD i [])⟩ :
          Bucket) ∈ bucketsFor ph seed keys := by
      simp only [bucketsFor, List.mem_map]
      exact ⟨keyBucket ph seed (bucketCount keys.length) (keys.getD i []),
        List.mem_range.mpr hkbi, rfl⟩
    have hbsort := hsortperm.mem_iff.mpr hbmem
    have hjmem : i ∈ (List.range keys.length).filter fun j =>
        keyBucket ph seed (bucketCount keys.length) (keys.getD j []) =
          keyBucket ph seed (bucketCount keys.length) (keys.getD i []) := by
      rw [List.mem_filter]
      exact ⟨List.mem_range.mpr hi, by simp⟩
    have hslot := hmain _ hbsort i hjmem
    have hlookup : lookupSlot ph sh seed disps keys.length (keys.getD i []) =
        slotFor sh keys.length
          (disps.getD (keyBucket ph seed (bucketCount keys.length)
            (keys.getD i [])) (0, 0)).1
          (disps.getD (keyBucket ph seed (bucketCount keys.length)
            (keys.getD i [])) (0, 0)).2 (keys.getD i []) := by
      rw [lookupSlot, hbc]
      rfl
    have hslotlt : slotFor sh keys.length
        (disps.getD (keyBucket ph seed (bucketCount keys.length)
          (keys.getD i [])) (0, 0)).1
        (disps.getD (keyBucket ph seed (bucketCount keys.length)
          (keys.getD i [])) (0, 0)).2 (keys.getD i []) < keys.length :=
      Nat.mod_lt _ hpos
    constructor
    · simp only [hlookup]
      rw [getD_map_lt _ tbl _ 0 none (by rw [htlen]; exact hslotlt)]
      rw [hslot]
      rfl
    · simp only [entriesOf, hlookup]
      rw [getD_map_lt _ (tbl.map fun o => o.getD 0) _ ([], "") 0
        (by rw [List.length_map, htlen]; exact hslotlt)]
      rw [getD_map_lt _ tbl _ 0 none (by rw [htlen]; exact hslotlt)]
      rw [hslot]
      rfl

/-- Witness for C2 at a concrete successful HashState and key index. -/
theorem lookup_returns_key_and_value_w :
    (⟨0, [(0, 0)], [0, 1]⟩ : HashState).map.getD
        (lookupSlot phA shA 0 [(0, 0)] 2 [1]) 0 = 1 ∧
    (entriesOf [[0], [1]] ["va", "vb"] ⟨0, [(0, 0)], [0, 1]⟩).getD
        (lookupSlot phA shA 0 [(0, 0)] 2 [1]) ([], "") = ([1], "vb") :=
  lookup_returns_key_and_value phA shA 0 [[0], [1]] ["va", "vb"]
    ⟨0, [(0, 0)], [0, 1]⟩ (by decide) 1 (by decide)

end Phf

